import Mathlib

/-!
Verification of the supervised-learning training/evaluation loop of the
Deep-Machine-Learning notebooks (IRIS classification and linear regression).

The loop pattern from the notebooks is embedded shallowly:

* model scores, losses and metrics are rationals (`ℚ`);
* a sample is a pair of abstract features `α` and an integer class label;
* the model is an abstract parameter state `P` with a forward map producing
  a score vector per sample;
* PyTorch's implicit gradient accumulation (`loss.backward()` adds into
  `.grad`, `optimizer.zero_grad()` clears it, `optimizer.step()` consumes it)
  is made explicit: the loop state carries a gradient accumulator of an
  abstract additive type `G`, and each batch performs, in the source's order:
  forward, loss, metric accumulation, backward (accumulate), step (consume),
  zero_grad (clear).
-/

namespace DML

/-- Loop state of the classification training loop of the IRIS notebook
(`model` parameters, accumulated gradients, `losses` list, `n_correct`). -/
structure EpochState (P G : Type) where
  params : P
  gradAccum : G
  losses : List ℚ
  nCorrect : Nat
deriving Repr

/-- A classification batch: samples paired with their integer class labels,
as yielded by the data loader (`for b_x, b_y in t_data_loader`). -/
abbrev Batch (α : Type) := List (α × Nat)

/-- Largest score of a prediction vector (0 for the empty vector, which the
model never produces since its output layer has 3 units). -/
def listMax : List ℚ → ℚ
  | [] => 0
  | a :: t => t.foldl max a

/-- Modelled from the spec: PyTorch's `argmax` (the maximum-selection the
source calls as `pred.argmax(dim=1)`; its implementation is not part of this
repository).  The spec fixes the convention: the chosen index is the first
index in index order attaining the maximum score. -/
def argmaxIdx (l : List ℚ) : Nat :=
  l.findIdx (fun v => v == listMax l)

/-- `sum(pred.argmax(dim=1) == b_y).item()`: the number of samples of a batch
whose hard prediction under parameters `p` equals the true label. -/
def countCorrect {α P : Type} (fwd : P → α → List ℚ) (p : P) (b : Batch α) : Nat :=
  (((b.map (fun ab => argmaxIdx (fwd p ab.1))).zip (b.map (fun ab => ab.2))).filter
    (fun q => q.1 == q.2)).length

/-- One iteration of the classification training loop body (part_000,
section 3.3): forward, loss, append loss, accumulate correct count, then
`loss.backward()` (gradients accumulate), `optimizer.step()` (parameters
updated from the accumulated gradients), `optimizer.zero_grad()`. -/
def trainBatch {α P G : Type} [AddCommMonoid G]
    (fwd : P → α → List ℚ) (lossFn : P → Batch α → ℚ)
    (gradFn : P → Batch α → G) (step : P → G → P)
    (s : EpochState P G) (b : Batch α) : EpochState P G :=
  let loss := lossFn s.params b
  let g := s.gradAccum + gradFn s.params b
  { params := step s.params g
    gradAccum := 0
    losses := s.losses ++ [loss]
    nCorrect := s.nCorrect + countCorrect fwd s.params b }

/-- One epoch of the classification training loop: `losses = []` and
`n_correct = 0` are reset, then every batch is processed in order. -/
def runEpoch {α P G : Type} [AddCommMonoid G]
    (fwd : P → α → List ℚ) (lossFn : P → Batch α → ℚ)
    (gradFn : P → Batch α → G) (step : P → G → P)
    (p : P) (g : G) (batches : List (Batch α)) : EpochState P G :=
  batches.foldl (trainBatch fwd lossFn gradFn step) ⟨p, g, [], 0⟩

/-- `accuracy = n_correct/len(t_dataset)`. -/
def epochAccuracy {P G : Type} (st : EpochState P G) (datasetSize : Nat) : ℚ :=
  (st.nCorrect : ℚ) / (datasetSize : ℚ)

/-- `avg_loss = sum(losses)/len(losses)`. -/
def avgLoss {P G : Type} (st : EpochState P G) : ℚ :=
  st.losses.sum / (st.losses.length : ℚ)

/-- The idealised per-batch update in which each optimizer step consumes
exactly the gradient of its own batch: no accumulation state at all. -/
def trainBatchClean {α P G : Type}
    (gradFn : P → Batch α → G) (step : P → G → P) (p : P) (b : Batch α) : P :=
  step p (gradFn p b)

/-- Reference recomputation of an epoch's per-batch losses: each batch's loss
is evaluated at the parameters the loop holds when the batch is processed. -/
def epochBatchLosses {α P G : Type}
    (lossFn : P → Batch α → ℚ) (gradFn : P → Batch α → G) (step : P → G → P) :
    P → List (Batch α) → List ℚ
  | _, [] => []
  | p, b :: bs =>
      lossFn p b :: epochBatchLosses lossFn gradFn step (trainBatchClean gradFn step p b) bs

/-- Reference recomputation of the epoch's (hard prediction, true label)
pairs, in sample order, each computed at the parameters the loop holds when
the sample's batch is processed. -/
def epochPredPairs {α P G : Type}
    (fwd : P → α → List ℚ) (gradFn : P → Batch α → G) (step : P → G → P) :
    P → List (Batch α) → List (Nat × Nat)
  | _, [] => []
  | p, b :: bs =>
      b.map (fun ab => (argmaxIdx (fwd p ab.1), ab.2))
        ++ epochPredPairs fwd gradFn step (trainBatchClean gradFn step p b) bs

lemma countCorrect_eq_countP {α P : Type} (fwd : P → α → List ℚ) (p : P) (b : Batch α) :
    countCorrect fwd p b
      = (b.map (fun ab => (argmaxIdx (fwd p ab.1), ab.2))).countP (fun q => q.1 == q.2) := by
  unfold countCorrect
  rw [List.zip_map' (fun ab => argmaxIdx (fwd p ab.1)) (fun ab => ab.2) b,
    List.countP_eq_length_filter]

/-- Invariants of the classification epoch fold, for any start state whose
gradient accumulator is cleared: the parameters follow the accumulation-free
trajectory, the accumulator ends cleared, the loss list extends the start
state's by the per-batch losses, and the correct count adds the number of
matching (hard prediction, label) pairs. -/
lemma foldl_trainBatch_spec {α P G : Type} [AddCommMonoid G]
    (fwd : P → α → List ℚ) (lossFn : P → Batch α → ℚ)
    (gradFn : P → Batch α → G) (step : P → G → P)
    (bs : List (Batch α)) (s : EpochState P G) (hs : s.gradAccum = 0) :
    (bs.foldl (trainBatch fwd lossFn gradFn step) s).params
        = bs.foldl (trainBatchClean gradFn step) s.params ∧
    (bs.foldl (trainBatch fwd lossFn gradFn step) s).gradAccum = 0 ∧
    (bs.foldl (trainBatch fwd lossFn gradFn step) s).losses
        = s.losses ++ epochBatchLosses lossFn gradFn step s.params bs ∧
    (bs.foldl (trainBatch fwd lossFn gradFn step) s).nCorrect
        = s.nCorrect
          + (epochPredPairs fwd gradFn step s.params bs).countP (fun q => q.1 == q.2) := by
  induction bs generalizing s with
  | nil =>
      simp [epochBatchLosses, epochPredPairs, hs]
  | cons b bs ih =>
      have hstep : trainBatch fwd lossFn gradFn step s b
          = { params := trainBatchClean gradFn step s.params b
              gradAccum := 0
              losses := s.losses ++ [lossFn s.params b]
              nCorrect := s.nCorrect + countCorrect fwd s.params b } := by
        simp [trainBatch, trainBatchClean, hs]
      obtain ⟨h1, h2, h3, h4⟩ := ih (trainBatch fwd lossFn gradFn step s b) (by rw [hstep])
      refine ⟨?_, ?_, ?_, ?_⟩
      · rw [List.foldl_cons, h1, hstep]
        rfl
      · rw [List.foldl_cons, h2]
      · rw [List.foldl_cons, h3, hstep]
        simp [epochBatchLosses]
      · rw [List.foldl_cons, h4, hstep]
        simp [epochPredPairs, countCorrect_eq_countP, List.countP_append, Nat.add_assoc]

/-- Claim C1: in every training loop, for every batch, the optimizer step of
that batch consumes only that batch's gradients (the accumulator is cleared
after each step, before the next backward pass), so the parameter trajectory
of the loop equals the trajectory of the accumulation-free loop in which
every update uses exactly its own batch's gradient, and the accumulator is
cleared at every batch boundary. -/
theorem gradients_cleared_each_batch {α P G : Type} [AddCommMonoid G]
    (fwd : P → α → List ℚ) (lossFn : P → Batch α → ℚ)
    (gradFn : P → Batch α → G) (step : P → G → P)
    (p : P) (batches : List (Batch α)) :
    (runEpoch fwd lossFn gradFn step p 0 batches).params
        = batches.foldl (trainBatchClean gradFn step) p ∧
    ∀ pre suf, batches = pre ++ suf →
      (runEpoch fwd lossFn gradFn step p 0 pre).gradAccum = 0 := by
  constructor
  · exact (foldl_trainBatch_spec fwd lossFn gradFn step batches ⟨p, 0, [], 0⟩ rfl).1
  · intro pre _ _
    exact (foldl_trainBatch_spec fwd lossFn gradFn step pre ⟨p, 0, [], 0⟩ rfl).2.1

/-- A tiny concrete model instance used to evaluate the loop: one rational
parameter `p`, scores `[p, 0]` for the two classes, constant gradient `2`,
plain descent step `p - g`. -/
def flipFwd : ℚ → Unit → List ℚ := fun p _ => [p, 0]

/-- Constant loss for the tiny concrete instance. -/
def flipLoss : ℚ → Batch Unit → ℚ := fun _ _ => 0

/-- Constant gradient for the tiny concrete instance. -/
def flipGrad : ℚ → Batch Unit → ℚ := fun _ _ => 2

/-- Plain gradient-descent step for the tiny concrete instance. -/
def flipStep : ℚ → ℚ → ℚ := fun p g => p - g

/-- A one-batch dataset for the tiny concrete instance: a single sample of
class 1. -/
def flipBatches : List (Batch Unit) := [[((), 1)]]

theorem gradients_cleared_each_batch_witness :
    (runEpoch flipFwd flipLoss flipGrad flipStep 1 0 flipBatches).gradAccum = 0 :=
  (gradients_cleared_each_batch flipFwd flipLoss flipGrad flipStep 1 flipBatches).2
    flipBatches [] (by simp)

lemma epochPredPairs_length {α P G : Type}
    (fwd : P → α → List ℚ) (gradFn : P → Batch α → G) (step : P → G → P)
    (bs : List (Batch α)) (p : P) :
    (epochPredPairs fwd gradFn step p bs).length = bs.flatten.length := by
  induction bs generalizing p with
  | nil => simp [epochPredPairs]
  | cons b bs ih => simp [epochPredPairs, ih]

/-- Claim C2: the reported training accuracy of an epoch equals the number of
samples whose hard prediction (index of the maximum predicted score, at the
parameters in force when the sample's batch was processed) equals the true
label, divided by the dataset size — which is the total number of samples the
epoch's batches yield — and this value lies in [0, 1]. -/
theorem training_accuracy_spec {α P G : Type} [AddCommMonoid G]
    (fwd : P → α → List ℚ) (lossFn : P → Batch α → ℚ)
    (gradFn : P → Batch α → G) (step : P → G → P)
    (p : P) (batches : List (Batch α)) (N : Nat)
    (hN : batches.flatten.length = N) (hpos : 0 < N) :
    epochAccuracy (runEpoch fwd lossFn gradFn step p 0 batches) N
        = ((epochPredPairs fwd gradFn step p batches).countP (fun q => q.1 == q.2) : ℚ)
            / (N : ℚ) ∧
    0 ≤ epochAccuracy (runEpoch fwd lossFn gradFn step p 0 batches) N ∧
    epochAccuracy (runEpoch fwd lossFn gradFn step p 0 batches) N ≤ 1 := by
  have hcnt := (foldl_trainBatch_spec fwd lossFn gradFn step batches ⟨p, 0, [], 0⟩ rfl).2.2.2
  have heq : epochAccuracy (runEpoch fwd lossFn gradFn step p 0 batches) N
      = ((epochPredPairs fwd gradFn step p batches).countP (fun q => q.1 == q.2) : ℚ)
          / (N : ℚ) := by
    unfold epochAccuracy runEpoch
    rw [hcnt]
    norm_num
  refine ⟨heq, ?_, ?_⟩
  · rw [heq]
    positivity
  · rw [heq]
    rw [div_le_one (by exact_mod_cast hpos)]
    have hle : (epochPredPairs fwd gradFn step p batches).countP (fun q => q.1 == q.2) ≤ N := by
      calc (epochPredPairs fwd gradFn step p batches).countP (fun q => q.1 == q.2)
          ≤ (epochPredPairs fwd gradFn step p batches).length := List.countP_le_length _
        _ = N := by rw [epochPredPairs_length, hN]
    exact_mod_cast hle

theorem training_accuracy_spec_witness :
    flipBatches.flatten.length = 1 ∧ 0 < 1 ∧
    (epochAccuracy (runEpoch flipFwd flipLoss flipGrad flipStep 1 0 flipBatches) 1
        = ((epochPredPairs flipFwd flipGrad flipStep 1 flipBatches).countP
            (fun q => q.1 == q.2) : ℚ) / (1 : ℚ) ∧
      0 ≤ epochAccuracy (runEpoch flipFwd flipLoss flipGrad flipStep 1 0 flipBatches) 1 ∧
      epochAccuracy (runEpoch flipFwd flipLoss flipGrad flipStep 1 0 flipBatches) 1 ≤ 1) :=
  ⟨rfl, Nat.one_pos,
    training_accuracy_spec flipFwd flipLoss flipGrad flipStep 1 flipBatches 1 rfl Nat.one_pos⟩

/-- One iteration of the validation loop body (part_000, section 3.4, inside
`with torch.no_grad()`): forward, loss, append loss, accumulate correct
count; no backward pass, no optimizer step, no parameter mutation. -/
def valBatch {α P G : Type}
    (fwd : P → α → List ℚ) (lossFn : P → Batch α → ℚ)
    (s : EpochState P G) (b : Batch α) : EpochState P G :=
  { s with
    losses := s.losses ++ [lossFn s.params b]
    nCorrect := s.nCorrect + countCorrect fwd s.params b }

/-- The validation pass: reset `losses = []`, `n_correct = 0`, then evaluate
every validation batch under the current parameters. -/
def runValidation {α P G : Type}
    (fwd : P → α → List ℚ) (lossFn : P → Batch α → ℚ)
    (p : P) (g : G) (batches : List (Batch α)) : EpochState P G :=
  batches.foldl (valBatch fwd lossFn) ⟨p, g, [], 0⟩

lemma foldl_valBatch_frame {α P G : Type}
    (fwd : P → α → List ℚ) (lossFn : P → Batch α → ℚ)
    (bs : List (Batch α)) (s : EpochState P G) :
    (bs.foldl (valBatch fwd lossFn) s).params = s.params ∧
    (bs.foldl (valBatch fwd lossFn) s).gradAccum = s.gradAccum := by
  induction bs generalizing s with
  | nil => exact ⟨rfl, rfl⟩
  | cons b bs ih => exact (ih (valBatch fwd lossFn s b))

/-- Claim C3: the validation pass computes its metrics without mutating the
model parameters or the gradient accumulator, and running it twice in a row
with no training in between produces identical results both times. -/
theorem validation_frame {α P G : Type}
    (fwd : P → α → List ℚ) (lossFn : P → Batch α → ℚ)
    (p : P) (g : G) (batches : List (Batch α)) :
    (runValidation fwd lossFn p g batches).params = p ∧
    (runValidation fwd lossFn p g batches).gradAccum = g ∧
    runValidation fwd lossFn (runValidation fwd lossFn p g batches).params
        (runValidation fwd lossFn p g batches).gradAccum batches
      = runValidation fwd lossFn p g batches := by
  have h := foldl_valBatch_frame fwd lossFn batches ⟨p, g, [], 0⟩
  refine ⟨h.1, h.2, ?_⟩
  unfold runValidation
  rw [h.1, h.2]

/-- Multi-epoch training driver (part_000, section 3.3): every epoch resets
`losses = []` and `n_correct = 0`, runs the epoch over that epoch's batch
sequence (the shuffling loader draws a fresh sequence each epoch, so the
batch sequences are an input, one per epoch), and reports the record
`(avg_loss, accuracy)`. -/
def runTraining {α P G : Type} [AddCommMonoid G]
    (fwd : P → α → List ℚ) (lossFn : P → Batch α → ℚ)
    (gradFn : P → Batch α → G) (step : P → G → P) (N : Nat) :
    P → List (List (Batch α)) → P × List (ℚ × ℚ)
  | p, [] => (p, [])
  | p, bs :: rest =>
      let st := runEpoch fwd lossFn gradFn step p 0 bs
      let r := runTraining fwd lossFn gradFn step N st.params rest
      (r.1, (avgLoss st, epochAccuracy st N) :: r.2)

/-- Parameters after the given list of completed epochs, along the
accumulation-free trajectory. -/
def paramsAfterEpochs {α P G : Type}
    (gradFn : P → Batch α → G) (step : P → G → P)
    (p : P) (bss : List (List (Batch α))) : P :=
  bss.foldl (fun q bs => bs.foldl (trainBatchClean gradFn step) q) p

lemma epochBatchLosses_length {α P G : Type}
    (lossFn : P → Batch α → ℚ) (gradFn : P → Batch α → G) (step : P → G → P)
    (bs : List (Batch α)) (p : P) :
    (epochBatchLosses lossFn gradFn step p bs).length = bs.length := by
  induction bs generalizing p with
  | nil => rfl
  | cons b bs ih => simp [epochBatchLosses, ih]

/-- Claim C4: for every epoch, the reported epoch loss is the arithmetic mean
of that epoch's per-batch losses (their sum divided by the number of the
epoch's batches), and the reported accuracy is likewise recomputed from that
epoch alone: both are determined by the epoch-start parameters and the
epoch's own batches, with the accumulators starting from `[]` and `0` — no
carry-over or smoothing from earlier epochs. -/
theorem epoch_loss_mean {α P G : Type} [AddCommMonoid G]
    (fwd : P → α → List ℚ) (lossFn : P → Batch α → ℚ)
    (gradFn : P → Batch α → G) (step : P → G → P)
    (N : Nat) (p : P) (bss : List (List (Batch α))) (e : Nat) (he : e < bss.length) :
    ((runTraining fwd lossFn gradFn step N p bss).2.getD e (0, 0)).1
        = (epochBatchLosses lossFn gradFn step
              (paramsAfterEpochs gradFn step p (bss.take e)) (bss.getD e [])).sum
          / ((bss.getD e []).length : ℚ) ∧
    ((runTraining fwd lossFn gradFn step N p bss).2.getD e (0, 0)).2
        = ((epochPredPairs fwd gradFn step
              (paramsAfterEpochs gradFn step p (bss.take e)) (bss.getD e [])).countP
              (fun q => q.1 == q.2) : ℚ) / (N : ℚ) := by
  induction bss generalizing p e with
  | nil => exact absurd he (Nat.not_lt_zero e)
  | cons bs rest ih =>
      have hspec := foldl_trainBatch_spec fwd lossFn gradFn step bs
        ⟨p, 0, [], 0⟩ rfl
      cases e with
      | zero =>
          simp only [runTraining, List.getD_cons_zero, List.take_zero]
          constructor
          · show avgLoss (runEpoch fwd lossFn gradFn step p 0 bs) = _
            unfold avgLoss
            rw [show (runEpoch fwd lossFn gradFn step p 0 bs).losses
                = epochBatchLosses lossFn gradFn step p bs from hspec.2.2.1,
              epochBatchLosses_length]
            rfl
          · show epochAccuracy (runEpoch fwd lossFn gradFn step p 0 bs) N = _
            unfold epochAccuracy
            have hn : (runEpoch fwd lossFn gradFn step p 0 bs).nCorrect
                = (epochPredPairs fwd gradFn step p bs).countP (fun q => q.1 == q.2) := by
              simpa using hspec.2.2.2
            rw [hn]
            rfl
      | succ e =>
          have he' : e < rest.length := Nat.succ_lt_succ_iff.mp he
          have hnext := ih (runEpoch fwd lossFn gradFn step p 0 bs).params e he'
          simp only [runTraining, List.getD_cons_succ, List.take_succ_cons]
          rw [show paramsAfterEpochs gradFn step p (bs :: rest.take e)
              = paramsAfterEpochs gradFn step (bs.foldl (trainBatchClean gradFn step) p)
                  (rest.take e) from rfl,
            ← hspec.1]
          exact hnext

theorem epoch_loss_mean_witness :
    1 < [flipBatches, flipBatches].length ∧
    (((runTraining flipFwd flipLoss flipGrad flipStep 1 1 [flipBatches, flipBatches]).2.getD
          1 (0, 0)).1
        = (epochBatchLosses flipLoss flipGrad flipStep
              (paramsAfterEpochs flipGrad flipStep 1 ([flipBatches, flipBatches].take 1))
              ([flipBatches, flipBatches].getD 1 [])).sum
          / (([flipBatches, flipBatches].getD 1 []).length : ℚ) ∧
      ((runTraining flipFwd flipLoss flipGrad flipStep 1 1 [flipBatches, flipBatches]).2.getD
          1 (0, 0)).2
        = ((epochPredPairs flipFwd flipGrad flipStep
              (paramsAfterEpochs flipGrad flipStep 1 ([flipBatches, flipBatches].take 1))
              ([flipBatches, flipBatches].getD 1 [])).countP
              (fun q => q.1 == q.2) : ℚ) / ((1 : Nat) : ℚ)) :=
  ⟨by decide,
    epoch_loss_mean flipFwd flipLoss flipGrad flipStep 1 1 [flipBatches, flipBatches] 1
      (by decide)⟩

lemma le_foldl_max (t : List ℚ) (a : ℚ) :
    a ≤ t.foldl max a ∧ ∀ x ∈ t, x ≤ t.foldl max a := by
  induction t generalizing a with
  | nil => exact ⟨le_refl a, by simp⟩
  | cons b t ih =>
      obtain ⟨h1, h2⟩ := ih (max a b)
      refine ⟨le_trans (le_max_left a b) h1, ?_⟩
      intro x hx
      rcases List.mem_cons.mp hx with rfl | hx
      · exact le_trans (le_max_right a x) h1
      · exact h2 x hx

lemma foldl_max_mem (t : List ℚ) (a : ℚ) : t.foldl max a ∈ a :: t := by
  induction t generalizing a with
  | nil => simp
  | cons b t ih =>
      rcases List.mem_cons.mp (ih (max a b)) with h | h
      · rcases max_choice a b with hab | hab <;> rw [List.foldl_cons, h, hab] <;> simp
      · exact List.mem_cons_of_mem a (List.mem_cons_of_mem b h)

lemma le_listMax (l : List ℚ) : ∀ x ∈ l, x ≤ listMax l := by
  intro x hx
  cases l with
  | nil => cases hx
  | cons a t =>
      rcases List.mem_cons.mp hx with rfl | hx
      · exact (le_foldl_max t x).1
      · exact (le_foldl_max t a).2 x hx

lemma listMax_mem (l : List ℚ) (h : l ≠ []) : listMax l ∈ l := by
  cases l with
  | nil => exact absurd rfl h
  | cons a t => exact foldl_max_mem t a

/-- Claim C5: for every non-empty prediction vector, the hard prediction is a
valid index attaining the maximum score, no score exceeds it, and every index
strictly before it has a strictly smaller score — so when several classes tie
for the maximum, the chosen index is the lowest tying one. -/
theorem argmax_lowest_tie (l : List ℚ) (hl : l ≠ []) :
    argmaxIdx l < l.length ∧
    l.getD (argmaxIdx l) 0 = listMax l ∧
    (∀ j, j < l.length → l.getD j 0 ≤ l.getD (argmaxIdx l) 0) ∧
    (∀ j, j < argmaxIdx l → l.getD j 0 < l.getD (argmaxIdx l) 0) := by
  have hex : ∃ x ∈ l, (x == listMax l) = true :=
    ⟨listMax l, listMax_mem l hl, beq_self_eq_true _⟩
  have hlt : argmaxIdx l < l.length := List.findIdx_lt_length_of_exists hex
  have hval : l.getD (argmaxIdx l) 0 = listMax l := by
    rw [List.getD_eq_getElem l 0 hlt]
    exact eq_of_beq (List.findIdx_getElem (w := hlt))
  refine ⟨hlt, hval, ?_, ?_⟩
  · intro j hj
    rw [List.getD_eq_getElem l 0 hj, hval]
    exact le_listMax l _ (List.getElem_mem hj)
  · intro j hj
    have hjl : j < l.length := lt_trans hj hlt
    have hne := List.not_of_lt_findIdx (p := fun v => v == listMax l) hj
    rw [List.getD_eq_getElem l 0 hjl, hval]
    refine lt_of_le_of_ne (le_listMax l _ (List.getElem_mem hjl)) ?_
    intro hcontra
    rw [hcontra] at hne
    simp at hne

theorem argmax_lowest_tie_witness :
    ([(3 : ℚ), 7, 7] ≠ []) ∧
    (argmaxIdx [(3 : ℚ), 7, 7] < ([(3 : ℚ), 7, 7]).length ∧
     ([(3 : ℚ), 7, 7]).getD (argmaxIdx [(3 : ℚ), 7, 7]) 0 = listMax [(3 : ℚ), 7, 7] ∧
     (∀ j, j < ([(3 : ℚ), 7, 7]).length →
        ([(3 : ℚ), 7, 7]).getD j 0 ≤ ([(3 : ℚ), 7, 7]).getD (argmaxIdx [(3 : ℚ), 7, 7]) 0) ∧
     (∀ j, j < argmaxIdx [(3 : ℚ), 7, 7] →
        ([(3 : ℚ), 7, 7]).getD j 0 < ([(3 : ℚ), 7, 7]).getD (argmaxIdx [(3 : ℚ), 7, 7]) 0)) :=
  ⟨by simp, argmax_lowest_tie [(3 : ℚ), 7, 7] (by simp)⟩

/-- Modelled from the spec: the `DataLoader`'s batching (the loader's
implementation is not part of this repository) — the sample sequence is
consumed in order in chunks of `bs` samples each, the final chunk possibly
shorter; a `bs` of zero yields no batches. -/
def toBatches {α : Type} (bs : Nat) : List α → List (List α)
  | [] => []
  | a :: t =>
      if h : bs = 0 then []
      else (a :: t).take bs :: toBatches bs ((a :: t).drop bs)
termination_by l => l.length
decreasing_by
  have hbs : 0 < bs := Nat.pos_of_ne_zero h
  simp only [List.length_drop, List.length_cons]
  omega

/-- Claim C6: whenever the batch size is at least the dataset size, the loop
processes exactly one batch per epoch, and that batch is the entire dataset
(full-batch gradient descent as the degenerate single-batch case). -/
theorem full_batch_single {α : Type} (bs : Nat) (l : List α)
    (h1 : l ≠ []) (h2 : l.length ≤ bs) :
    toBatches bs l = [l] := by
  cases l with
  | nil => exact absurd rfl h1
  | cons a t =>
      have hbs : ¬bs = 0 := by
        intro h
        subst h
        simp at h2
      simp only [toBatches]
      rw [dif_neg hbs, List.take_of_length_le h2, List.drop_eq_nil_of_le h2]
      simp only [toBatches]

theorem full_batch_single_witness :
    ([(1 : ℚ), 2, 3] ≠ [] ∧ ([(1 : ℚ), 2, 3]).length ≤ 5) ∧
    toBatches 5 [(1 : ℚ), 2, 3] = [[(1 : ℚ), 2, 3]] :=
  ⟨⟨by simp, by simp⟩, full_batch_single 5 [(1 : ℚ), 2, 3] (by simp) (by simp)⟩

/-- Modelled from the spec: `random_split` and `train_test_split` (their
implementations are not part of this repository) — a shuffled index sequence
of the original dataset is cut into consecutive chunks of the requested
lengths; each subset then views the original samples through its index
chunk, so every subset sample keeps its (features, target) pairing. -/
def splitByLens {σ : Type} : List Nat → List σ → List (List σ)
  | [], _ => []
  | n :: ns, l => l.take n :: splitByLens ns (l.drop n)

lemma flatten_splitByLens {σ : Type} (lens : List Nat) (l : List σ)
    (h : lens.sum = l.length) : (splitByLens lens l).flatten = l := by
  induction lens generalizing l with
  | nil =>
      have hnil : l = [] := List.eq_nil_of_length_eq_zero h.symm
      simp [splitByLens, hnil]
  | cons n ns ih =>
      have hsum : ns.sum = (l.drop n).length := by
        rw [List.sum_cons] at h
        simp only [List.length_drop]
        omega
      simp only [splitByLens, List.flatten_cons]
      rw [ih (l.drop n) hsum, List.take_append_drop]

/-- Claim C7: cutting a permutation of the index set `{0, ..., N-1}` into
chunks whose lengths sum to `N` yields subsets whose index lists are
individually duplicate-free and pairwise disjoint, whose concatenation is a
permutation of the full index set, and in which every index below `N`
appears exactly once (and no other index appears). -/
theorem split_partition (N : Nat) (perm : List Nat) (lens : List Nat)
    (hperm : perm.Perm (List.range N)) (hsum : lens.sum = N) :
    (splitByLens lens perm).flatten.Perm (List.range N) ∧
    (∀ s ∈ splitByLens lens perm, s.Nodup) ∧
    (splitByLens lens perm).Pairwise List.Disjoint ∧
    (∀ i, i < N → (splitByLens lens perm).flatten.count i = 1) ∧
    (∀ i, N ≤ i → (splitByLens lens perm).flatten.count i = 0) := by
  have hlen : perm.length = N := by
    rw [hperm.length_eq, List.length_range]
  have hflat : (splitByLens lens perm).flatten = perm :=
    flatten_splitByLens lens perm (by rw [hsum, hlen])
  have hnodup : perm.Nodup := hperm.nodup_iff.mpr (List.nodup_range N)
  have hnf : (splitByLens lens perm).flatten.Nodup := by rw [hflat]; exact hnodup
  obtain ⟨hsub, hdisj⟩ := List.nodup_flatten.mp hnf
  refine ⟨by rw [hflat]; exact hperm, hsub, hdisj, ?_, ?_⟩
  · intro i hi
    rw [hflat, hperm.count_eq]
    exact List.count_eq_one_of_mem (List.nodup_range N) (List.mem_range.mpr hi)
  · intro i hi
    rw [hflat, hperm.count_eq]
    exact List.count_eq_zero_of_not_mem (by simpa using Nat.not_lt.mpr hi)

theorem split_partition_witness :
    ([2, 0, 4, 1, 3] : List Nat).Perm (List.range 5) ∧ ([3, 2] : List Nat).sum = 5 ∧
    ((splitByLens [3, 2] [2, 0, 4, 1, 3]).flatten.Perm (List.range 5) ∧
     (∀ s ∈ splitByLens [3, 2] [2, 0, 4, 1, 3], s.Nodup) ∧
     (splitByLens [3, 2] [2, 0, 4, 1, 3]).Pairwise List.Disjoint ∧
     (∀ i, i < 5 → (splitByLens [3, 2] [2, 0, 4, 1, 3]).flatten.count i = 1) ∧
     (∀ i, 5 ≤ i → (splitByLens [3, 2] [2, 0, 4, 1, 3]).flatten.count i = 0)) :=
  ⟨by decide, by decide, split_partition 5 [2, 0, 4, 1, 3] [3, 2] (by decide) (by decide)⟩

/-- `encode_species` (part_000, section 2.1): maps a species string to its
class index and raises `ValueError` for any unrecognized string; the raise is
modelled as `Except.error` carrying the message. -/
def encode_species (species : String) : Except String Nat :=
  if species = "setosa" then Except.ok 0
  else if species = "versicolor" then Except.ok 1
  else if species = "virginica" then Except.ok 2
  else Except.error ("Species " ++ species ++ " is not recognized.")

/-- Claim C8: `encode_species` returns 0 for setosa, 1 for versicolor and
2 for virginica, and errors exactly on every other input string, so every
successfully encoded label lies in the contiguous set `{0, 1, 2}`. -/
theorem encode_species_spec (s : String) :
    encode_species "setosa" = Except.ok 0 ∧
    encode_species "versicolor" = Except.ok 1 ∧
    encode_species "virginica" = Except.ok 2 ∧
    ((∃ e, encode_species s = Except.error e) ↔
      (s ≠ "setosa" ∧ s ≠ "versicolor" ∧ s ≠ "virginica")) ∧
    (∀ k, encode_species s = Except.ok k → k < 3) := by
  refine ⟨rfl, rfl, rfl, ?_, ?_⟩
  · unfold encode_species
    split_ifs with h1 h2 h3 <;> simp_all
  · intro k hk
    unfold encode_species at hk
    split_ifs at hk <;> simp_all <;> omega

theorem encode_species_spec_witness :
    (∃ e, encode_species "daisy" = Except.error e) ∧
    encode_species "setosa" = Except.ok 0 :=
  ⟨((encode_species_spec "daisy").2.2.2.1).mpr (by decide),
    (encode_species_spec "daisy").1⟩

/-- Entry (i, j) of the confusion matrix: the number of samples whose true
label is `i` and whose predicted label is `j`. -/
def cmEntry (ys ps : List Nat) (i j : Nat) : Nat :=
  (ys.zip ps).countP (fun q => q.1 == i && q.2 == j)

/-- Modelled from the spec: sklearn's `confusion_matrix(test_labels, preds)`
(its implementation is not part of this repository) for `K` classes — the
`K × K` table whose row `i`, column `j` counts the samples with true label
`i` and predicted label `j`. -/
def confusionMatrix (K : Nat) (ys ps : List Nat) : List (List Nat) :=
  (List.range K).map (fun i => (List.range K).map (fun j => cmEntry ys ps i j))

/-- Sum of all entries of a matrix given as a list of rows. -/
def matTotal (m : List (List Nat)) : Nat := (m.map List.sum).sum

/-- Sum of the diagonal entries of a matrix given as a list of rows. -/
def matTrace (m : List (List Nat)) : Nat :=
  ((List.range m.length).map (fun i => (m.getD i []).getD i 0)).sum

/-- `sum(preds == test_labels).item()`: the number of correct test
predictions. -/
def nCorrectTest (ys ps : List Nat) : Nat :=
  (ys.zip ps).countP (fun q => q.1 == q.2)

/-- `acc = sum(preds == test_labels).item()/len(preds)`. -/
def testAccuracy (ys ps : List Nat) : ℚ :=
  (nCorrectTest ys ps : ℚ) / (ps.length : ℚ)

lemma range_map_sum {M : Type} [AddCommMonoid M] (n : Nat) (f : Nat → M) :
    ((List.range n).map f).sum = ∑ i ∈ Finset.range n, f i := by
  induction n with
  | zero => simp
  | succ n ih =>
      rw [List.range_succ, List.map_append, List.sum_append, Finset.sum_range_succ, ih]
      simp

lemma double_count (K : Nat) (zs : List (Nat × Nat))
    (h : ∀ z ∈ zs, z.1 < K ∧ z.2 < K) :
    (∑ i ∈ Finset.range K, ∑ j ∈ Finset.range K,
        zs.countP (fun q => q.1 == i && q.2 == j)) = zs.length := by
  induction zs with
  | nil => simp
  | cons z zs ih =>
      have hz := h z (List.mem_cons_self z zs)
      have ih2 := ih (fun w hw => h w (List.mem_cons_of_mem z hw))
      simp only [List.countP_cons, List.length_cons, Finset.sum_add_distrib, ih2]
      congr 1
      simp only [Bool.and_eq_true, beq_iff_eq, ite_and]
      rw [show (∑ i ∈ Finset.range K, ∑ j ∈ Finset.range K,
          if z.1 = i then if z.2 = j then 1 else 0 else 0)
        = ∑ i ∈ Finset.range K,
            if z.1 = i then (∑ j ∈ Finset.range K, if z.2 = j then 1 else 0) else 0 from
        Finset.sum_congr rfl (fun i _ => by split_ifs <;> simp)]
      rw [Finset.sum_ite_eq (Finset.range K) z.1
          (fun _ => ∑ j ∈ Finset.range K, if z.2 = j then 1 else 0),
        if_pos (Finset.mem_range.mpr hz.1),
        Finset.sum_ite_eq (Finset.range K) z.2 (fun _ => 1),
        if_pos (Finset.mem_range.mpr hz.2)]

lemma diag_count (K : Nat) (zs : List (Nat × Nat))
    (h : ∀ z ∈ zs, z.1 < K) :
    (∑ i ∈ Finset.range K, zs.countP (fun q => q.1 == i && q.2 == i))
      = zs.countP (fun q => q.1 == q.2) := by
  induction zs with
  | nil => simp
  | cons z zs ih =>
      have hz := h z (List.mem_cons_self z zs)
      have ih2 := ih (fun w hw => h w (List.mem_cons_of_mem z hw))
      simp only [List.countP_cons, Finset.sum_add_distrib, ih2]
      congr 1
      simp only [Bool.and_eq_true, beq_iff_eq, ite_and]
      by_cases hzz : z.1 = z.2
      · rw [if_pos (by exact_mod_cast hzz)]
        rw [show (∑ i ∈ Finset.range K, if z.1 = i then if z.2 = i then 1 else 0 else 0)
            = ∑ i ∈ Finset.range K, if z.1 = i then 1 else 0 from
          Finset.sum_congr rfl (fun i _ => by
            by_cases hi : z.1 = i
            · rw [if_pos hi, if_pos hi, if_pos (hzz ▸ hi)]
            · rw [if_neg hi, if_neg hi])]
        rw [Finset.sum_ite_eq (Finset.range K) z.1 (fun _ => 1),
          if_pos (Finset.mem_range.mpr hz)]
      · rw [if_neg (by exact_mod_cast hzz)]
        rw [show (∑ i ∈ Finset.range K, if z.1 = i then if z.2 = i then 1 else 0 else 0)
            = ∑ i ∈ Finset.range K, (0 : Nat) from
          Finset.sum_congr rfl (fun i _ => by
            split_ifs with hi h2 <;> try rfl
            exact absurd (hi.trans h2.symm) hzz)]
        simp

lemma zip_fst_lt {K : Nat} {ys ps : List Nat}
    (hy : ∀ a ∈ ys, a < K) (z : Nat × Nat) (hz : z ∈ ys.zip ps) : z.1 < K := by
  obtain ⟨a, b⟩ := z
  exact hy a (List.of_mem_zip hz).1

lemma zip_snd_lt {K : Nat} {ys ps : List Nat}
    (hp : ∀ a ∈ ps, a < K) (z : Nat × Nat) (hz : z ∈ ys.zip ps) : z.2 < K := by
  obtain ⟨a, b⟩ := z
  exact hp b (List.of_mem_zip hz).2

/-- Claim C9: for equal-length prediction and true-label vectors with labels
below `K`, the confusion matrix's entries sum to the number of samples, its
trace equals the number of correct predictions used for the accuracy, and
the accuracy equals trace over number of samples. -/
theorem confusion_matrix_consistent (K : Nat) (ys ps : List Nat)
    (hlen : ys.length = ps.length)
    (hy : ∀ a ∈ ys, a < K) (hp : ∀ a ∈ ps, a < K) :
    matTotal (confusionMatrix K ys ps) = ys.length ∧
    matTrace (confusionMatrix K ys ps) = nCorrectTest ys ps ∧
    testAccuracy ys ps
      = (matTrace (confusionMatrix K ys ps) : ℚ) / (ys.length : ℚ) := by
  have hmem : ∀ z ∈ ys.zip ps, z.1 < K ∧ z.2 < K :=
    fun z hz => ⟨zip_fst_lt hy z hz, zip_snd_lt hp z hz⟩
  have hziplen : (ys.zip ps).length = ys.length := by
    rw [List.length_zip, hlen, Nat.min_self]
  have htotal : matTotal (confusionMatrix K ys ps) = ys.length := by
    unfold matTotal confusionMatrix
    rw [List.map_map]
    have hrow : ∀ i, (List.sum ∘ fun i => (List.range K).map (fun j => cmEntry ys ps i j)) i
        = ∑ j ∈ Finset.range K, cmEntry ys ps i j := by
      intro i
      simp only [Function.comp]
      rw [range_map_sum]
    rw [List.map_congr_left (fun i _ => hrow i), range_map_sum]
    unfold cmEntry
    rw [double_count K (ys.zip ps) hmem, hziplen]
  have hK : (confusionMatrix K ys ps).length = K := by
    unfold confusionMatrix
    rw [List.length_map, List.length_range]
  have hdiag : ∀ i, i < K →
      ((confusionMatrix K ys ps).getD i []).getD i 0 = cmEntry ys ps i i := by
    intro i hi
    have h1 : i < ((List.range K).map
        (fun i => (List.range K).map (fun j => cmEntry ys ps i j))).length := by
      simpa using hi
    have hrow : (confusionMatrix K ys ps).getD i []
        = (List.range K).map (fun j => cmEntry ys ps i j) := by
      unfold confusionMatrix
      rw [List.getD_eq_getElem _ [] h1, List.getElem_map, List.getElem_range]
    rw [hrow]
    have h3 : i < ((List.range K).map (fun j => cmEntry ys ps i j)).length := by
      simpa using hi
    rw [List.getD_eq_getElem _ 0 h3, List.getElem_map, List.getElem_range]
  have htrace : matTrace (confusionMatrix K ys ps) = nCorrectTest ys ps := by
    unfold matTrace
    rw [hK, List.map_congr_left (fun i hi => hdiag i (List.mem_range.mp hi)), range_map_sum]
    unfold cmEntry nCorrectTest
    exact diag_count K (ys.zip ps) (fun z hz => zip_fst_lt hy z hz)
  refine ⟨htotal, htrace, ?_⟩
  rw [htrace]
  unfold testAccuracy
  rw [hlen]

theorem confusion_matrix_consistent_witness :
    (([0, 1, 2, 1] : List Nat).length = ([0, 2, 2, 1] : List Nat).length ∧
     (∀ a ∈ ([0, 1, 2, 1] : List Nat), a < 3) ∧
     (∀ a ∈ ([0, 2, 2, 1] : List Nat), a < 3)) ∧
    (matTotal (confusionMatrix 3 [0, 1, 2, 1] [0, 2, 2, 1]) = 4 ∧
     matTrace (confusionMatrix 3 [0, 1, 2, 1] [0, 2, 2, 1])
        = nCorrectTest [0, 1, 2, 1] [0, 2, 2, 1] ∧
     testAccuracy [0, 1, 2, 1] [0, 2, 2, 1]
        = (matTrace (confusionMatrix 3 [0, 1, 2, 1] [0, 2, 2, 1]) : ℚ)
            / (([0, 1, 2, 1] : List Nat).length : ℚ)) :=
  ⟨⟨by decide, by decide, by decide⟩,
    confusion_matrix_consistent 3 [0, 1, 2, 1] [0, 2, 2, 1] (by decide) (by decide) (by decide)⟩

/-- Claim C10: each batch's hard predictions counted toward the epoch's
training accuracy are computed at the parameters in force immediately before
that batch's optimizer step; consequently a parameter trajectory exists (the
concrete one-parameter instance, whose single step flips its prediction)
for which the reported training accuracy (0) differs from the accuracy the
end-of-epoch parameters achieve on the same training set (1). -/
theorem reported_vs_final_accuracy :
    (∀ {α P G : Type} [AddCommMonoid G]
        (fwd : P → α → List ℚ) (lossFn : P → Batch α → ℚ)
        (gradFn : P → Batch α → G) (step : P → G → P) (p : P) (b : Batch α)
        (bs : List (Batch α)),
      (runEpoch fwd lossFn gradFn step p 0 (b :: bs)).nCorrect
        = countCorrect fwd p b
          + (runEpoch fwd lossFn gradFn step (trainBatchClean gradFn step p b) 0 bs).nCorrect) ∧
    epochAccuracy (runEpoch flipFwd flipLoss flipGrad flipStep 1 0 flipBatches) 1 = 0 ∧
    (countCorrect flipFwd (runEpoch flipFwd flipLoss flipGrad flipStep 1 0 flipBatches).params
        [((), 1)] : ℚ) / 1 = 1 := by
  have hmax1 : listMax [(1 : ℚ), 0] = 1 := max_eq_left (by norm_num)
  have hmax2 : listMax [(-1 : ℚ), 0] = 0 := max_eq_right (by norm_num)
  have harg1 : argmaxIdx [(1 : ℚ), 0] = 0 := by
    unfold argmaxIdx
    simp only [hmax1]
    simp [List.findIdx_cons]
  have harg2 : argmaxIdx [(-1 : ℚ), 0] = 1 := by
    unfold argmaxIdx
    simp only [hmax2]
    have hne : ((-1 : ℚ) == 0) = false := beq_eq_false_iff_ne.mpr (by norm_num)
    simp [List.findIdx_cons, hne]
  have hcc1 : countCorrect flipFwd 1 [((), 1)] = 0 := by
    simp [countCorrect, flipFwd, harg1]
  have hcc2 : countCorrect flipFwd (-1) [((), 1)] = 1 := by
    simp [countCorrect, flipFwd, harg2]
  have hstate : runEpoch flipFwd flipLoss flipGrad flipStep 1 0 flipBatches
      = ⟨-1, 0, [0], 0⟩ := by
    unfold runEpoch flipBatches
    rw [List.foldl_cons, List.foldl_nil]
    unfold trainBatch flipLoss flipGrad flipStep
    simp [hcc1]
    norm_num
  refine ⟨?_, ?_, ?_⟩
  · intro α P G _ fwd lossFn gradFn step p b bs
    have h1 := (foldl_trainBatch_spec fwd lossFn gradFn step (b :: bs)
      ⟨p, 0, [], 0⟩ rfl).2.2.2
    have h2 := (foldl_trainBatch_spec fwd lossFn gradFn step bs
      ⟨trainBatchClean gradFn step p b, 0, [], 0⟩ rfl).2.2.2
    unfold runEpoch
    rw [h1, h2]
    simp [epochPredPairs, List.countP_append, countCorrect_eq_countP]
  · rw [hstate]
    simp [epochAccuracy]
  · rw [hstate]
    simp only [hcc2]
    norm_num

end DML
